import Mathlib

/-!
Verification development for the JSONC configuration round-trip core
(`parseJsonWithComments`, `serializeWithComments`, `formatKeyName`,
`isChildSetting` of `src/lib/jsonParser.ts`).

The TypeScript source is shallowly embedded: strings become `String` /
`List Char`, the insertion-ordered JavaScript `Map` (and plain object)
becomes an association list whose `set` updates a present key in place,
and the two regular expressions of the scanner are compiled into
deterministic character-level matchers (their derivations are documented
at each definition).  The JavaScript builtins the source relies on
(`String.prototype.trim`, `String.prototype.split`, `JSON.parse`,
`JSON.stringify`, template-literal stringification) are modelled after
their ECMAScript semantics.
-/

namespace JsonEditorBuddy

/-! ## Characters and JavaScript string helpers -/

/-- The ECMAScript whitespace set used by `String.prototype.trim` and by
the regex class `\s`: tab, LF, VT, FF, CR, space, NBSP, and the Unicode
space separators, line separators and BOM. -/
def jsWhitespace (c : Char) : Bool :=
  c = '\t' || c = '\n' || c = '\x0b' || c = '\x0c' || c = '\r' || c = ' ' ||
  c = '\u00A0' || c = '\u1680' || ('\u2000' ≤ c && c ≤ '\u200A') ||
  c = '\u2028' || c = '\u2029' || c = '\u202F' || c = '\u205F' ||
  c = '\u3000' || c = '\uFEFF'

/-- Remove trailing whitespace (on `List Char`). -/
def trimRightList (l : List Char) : List Char :=
  (l.reverse.dropWhile jsWhitespace).reverse

/-- `String.prototype.trim` on `List Char`. -/
def jsTrimList (l : List Char) : List Char :=
  trimRightList (l.dropWhile jsWhitespace)

/-- `String.prototype.trim`. -/
def jsTrim (s : String) : String :=
  String.mk (jsTrimList s.data)

/-- Split a character list at every occurrence of `sep`
(the semantics of `String.prototype.split` with a one-character
separator: `""` splits to `[""]`, a trailing separator yields a final
empty piece). -/
def splitCharAux (sep : Char) : List Char → List (List Char)
  | [] => [[]]
  | c :: rest =>
    if c = sep then [] :: splitCharAux sep rest
    else
      match splitCharAux sep rest with
      | l :: ls => (c :: l) :: ls
      | [] => [[c]]

/-- `text.split('\n')`. -/
def splitLines (text : String) : List String :=
  (splitCharAux '\n' text.data).map String.mk

/-- `lines.join('\n')`. -/
def joinLines : List String → String
  | [] => ""
  | [l] => l
  | l :: rest => l ++ "\n" ++ joinLines rest

/-- `parts.split('_')` on a string. -/
def splitOnUnderscore (s : String) : List String :=
  (splitCharAux '_' s.data).map String.mk

/-- `parts.join('_')`. -/
def joinUnderscore : List String → String
  | [] => ""
  | [s] => s
  | s :: rest => s ++ "_" ++ joinUnderscore rest

/-- `parts.join(',')` (used by `Array.prototype.toString` and compact
`JSON.stringify`). -/
def joinWithComma : List String → String
  | [] => ""
  | [s] => s
  | s :: rest => s ++ "," ++ joinWithComma rest

/-! ## Insertion-ordered association list

JavaScript's `Map` (used for the section index) and plain objects (used
for the parsed data) both iterate keys in insertion order, and setting a
key that is already present replaces the value while keeping the key's
original position.  `alistSet`/`alistLookup` model exactly that. -/

/-- `map.set(k, v)`: update in place if `k` is present, else append. -/
def alistSet {α : Type} : List (String × α) → String → α → List (String × α)
  | [], k, v => [(k, v)]
  | (k', v') :: rest, k, v =>
    if k' = k then (k', v) :: rest else (k', v') :: alistSet rest k v

/-- `map.get(k)` / `data[k]` (`none` models `undefined`). -/
def alistLookup {α : Type} : List (String × α) → String → Option α
  | [], _ => none
  | (k', v) :: rest, k => if k' = k then some v else alistLookup rest k

/-! ## CommentStripper

Faithful embedding of the per-line comment removal loop of
`parseJsonWithComments` (`src/lib/jsonParser.ts`): a single left-to-right
scan with an `inString` flag toggled at every double quote that is not
immediately preceded by a backslash; outside a string, a `/` whose next
character is also `/` truncates the output.  `prev` holds `line[i-1]`
(`none` at the first character). -/

def stripChars : List Char → Bool → Option Char → List Char
  | [], _, _ => []
  | c :: rest, inString, prev =>
    if c = '"' && prev ≠ some '\\' then
      c :: stripChars rest (!inString) (some c)
    else if !inString && c = '/' && rest.head? = some '/' then
      []
    else
      c :: stripChars rest inString (some c)

/-- The whole-line comment stripper (`cleanedLines` map in the source). -/
def stripLine (line : String) : String :=
  String.mk (stripChars line.data false none)

/-- Index at which the stripping scan truncates, if any: the first
position holding `//` while the `inString` flag is off.  Mirrors
`stripChars` step for step. -/
def firstCommentIdx : List Char → Bool → Option Char → Option Nat
  | [], _, _ => none
  | c :: rest, inString, prev =>
    if c = '"' && prev ≠ some '\\' then
      (firstCommentIdx rest (!inString) (some c)).map (· + 1)
    else if !inString && c = '/' && rest.head? = some '/' then
      some 0
    else
      (firstCommentIdx rest inString (some c)).map (· + 1)

/-- The `inString` flag after scanning a list of characters (the scan
never truncates here; it merely tracks the string-literal state). -/
def literalState : List Char → Bool → Option Char → Bool
  | [], inString, _ => inString
  | c :: rest, inString, prev =>
    if c = '"' && prev ≠ some '\\' then literalState rest (!inString) (some c)
    else literalState rest inString (some c)

/-- Whether position `n` of `line` lies inside a double-quoted string
literal, per the stripper's own state machine: the `inString` flag when
the scan reaches index `n`. -/
def inLiteralAt (line : List Char) (n : Nat) : Bool :=
  literalState (line.take n) false none

/-! ## SectionScanner -/

def isUpperAscii (c : Char) : Bool := 'A' ≤ c && c ≤ 'Z'

def isAsciiLetter (c : Char) : Bool :=
  ('a' ≤ c && c ≤ 'z') || ('A' ≤ c && c ≤ 'Z')

/-- Matcher for the section-header regex
`/^\/\/\s*([A-Z]+(?:\s*-\s*[a-zA-Z\s]+)?)\s*$/` applied to the trimmed
line; returns `match[1].trim()` on success.

Derivation: the pattern is anchored on both sides.  After `//` and a
greedy `\s*`, `[A-Z]+` consumes the maximal run of capitals (giving
characters back never helps: the next alternative needs `-` or the end,
and a capital is neither whitespace nor `-`).  Then either the optional
group is absent and the remainder must be all whitespace (`\s*$`), or it
is present: maximal whitespace, a literal `-`, and at least one
character of `[a-zA-Z\s]`; because that class contains `\s`, the greedy
run must extend to the end of the string for `\s*$` to close, i.e. the
whole tail after `-` must be nonempty and drawn from letters and
whitespace.  The capture is everything from the capitals to the end of
the consumed tail, and the caller trims it. -/
def sectionHeaderName (s : List Char) : Option String :=
  match s with
  | '/' :: '/' :: r0 =>
    let r1 := r0.dropWhile jsWhitespace
    let caps := r1.takeWhile isUpperAscii
    let r2 := r1.dropWhile isUpperAscii
    if caps.isEmpty then none
    else if r2.all jsWhitespace then
      some (String.mk (jsTrimList caps))
    else
      let w2 := r2.takeWhile jsWhitespace
      match r2.dropWhile jsWhitespace with
      | '-' :: tail =>
        if !tail.isEmpty && tail.all (fun c => isAsciiLetter c || jsWhitespace c) then
          some (String.mk (jsTrimList (caps ++ w2 ++ '-' :: tail)))
        else none
      | _ => none
  | _ => none

/-- Matcher for the key-declaration regex `/^"\$([^"]+)":/` applied to
the trimmed line; returns `'$' + match[1]` on success.

Derivation: after the literal `"` and `$`, the greedy `[^"]+` consumes
the maximal run of non-quote characters (at least one); the next two
characters must then be `"` and `:` (shortening the run cannot help,
since the character before the closing quote would not be `"`). -/
def keyLineMatch (s : List Char) : Option String :=
  match s with
  | '"' :: '$' :: rest =>
    if (rest.takeWhile (fun c => c ≠ '"')).isEmpty then none
    else
      match rest.dropWhile (fun c => c ≠ '"') with
      | '"' :: ':' :: _ => some (String.mk ('$' :: rest.takeWhile (fun c => c ≠ '"')))
      | _ => none
  | _ => none

/-- The scanner loop of `parseJsonWithComments`: walk the raw lines with
a current section name (initially `"General"`) and an accumulator of
keys; a section-header line commits a nonempty accumulator under the
previous name and switches section; a key line appends to the
accumulator; after the last line a nonempty accumulator is committed
under the final name. -/
def scanAux : List String → List (String × List String) → String → List String →
    List (String × List String)
  | [], sections, cur, acc =>
    if acc.isEmpty then sections else alistSet sections cur acc
  | line :: rest, sections, cur, acc =>
    let trimmed := jsTrim line
    match sectionHeaderName trimmed.data with
    | some name =>
      let sections' := if acc.isEmpty then sections else alistSet sections cur acc
      scanAux rest sections' name []
    | none =>
      match keyLineMatch trimmed.data with
      | some k => scanAux rest sections cur (acc ++ [k])
      | none => scanAux rest sections cur acc

/-- The section index produced by `parseJsonWithComments` for a list of
raw lines. -/
def scanSections (lines : List String) : List (String × List String) :=
  scanAux lines [] "General" []

/-- The ordered sequence of commit events the scanner performs: each
time a nonempty accumulator is stored (at a header line or at the end of
input), the pair `(section name, accumulated keys)` is emitted.  The
final index is the left fold of `alistSet` over this sequence. -/
def scanCommitsAux : List String → String → List String → List (String × List String)
  | [], cur, acc => if acc.isEmpty then [] else [(cur, acc)]
  | line :: rest, cur, acc =>
    let trimmed := jsTrim line
    match sectionHeaderName trimmed.data with
    | some name =>
      (if acc.isEmpty then [] else [(cur, acc)]) ++ scanCommitsAux rest name []
    | none =>
      match keyLineMatch trimmed.data with
      | some k => scanCommitsAux rest cur (acc ++ [k])
      | none => scanCommitsAux rest cur acc

def scanCommits (lines : List String) : List (String × List String) :=
  scanCommitsAux lines "General" []

/-! ## JSON values and the `JSON.parse` / `JSON.stringify` builtins

The source calls the ECMAScript builtins `JSON.parse` and
`JSON.stringify`; they are modelled here after ECMA-404 / ECMA-262.
A number is kept as `mantissa / 10 ^ exp10` in the canonical form where
`exp10 > 0` implies the mantissa is not divisible by 10, so that two
literals denoting the same decimal value parse to equal terms (JS
numbers compare by value).  Objects are insertion-ordered association
lists; a duplicate key in the source text overwrites the value but keeps
the first position, as JS property definition does. -/

inductive Json where
  | null : Json
  | bool (b : Bool) : Json
  | num (mantissa : Int) (exp10 : Nat) : Json
  | str (s : String) : Json
  | arr (elems : List Json) : Json
  | obj (fields : List (String × Json)) : Json

/-- Strip factors of 10 from the mantissa into the exponent budget `p`,
producing the canonical `(mantissa, exp10)` form. -/
def normNum : Int → Nat → Int × Nat
  | m, 0 => (m, 0)
  | m, p + 1 => if m % 10 = 0 then normNum (m / 10) p else (m, p + 1)

/-- The whitespace JSON itself allows between tokens (space, tab, LF, CR). -/
def skipJsonWs (cs : List Char) : List Char :=
  cs.dropWhile (fun c => c = ' ' || c = '\t' || c = '\n' || c = '\r')

def isDigitChar (c : Char) : Bool := '0' ≤ c && c ≤ '9'

def digitsToNat (ds : List Char) : Nat :=
  ds.foldl (fun a c => 10 * a + (c.toNat - '0'.toNat)) 0

def hexVal (c : Char) : Option Nat :=
  if '0' ≤ c && c ≤ '9' then some (c.toNat - 48)
  else if 'a' ≤ c && c ≤ 'f' then some (c.toNat - 87)
  else if 'A' ≤ c && c ≤ 'F' then some (c.toNat - 55)
  else none

/-- JSON string body (after the opening quote): ordinary characters,
the eight short escapes, and `\uXXXX`; raw control characters and
unknown escapes are errors, as in `JSON.parse`. -/
def parseStrAux : List Char → List Char → Except String (String × List Char)
  | [], _ => .error "Unterminated string in JSON"
  | '"' :: rest, acc => .ok (String.mk acc.reverse, rest)
  | '\\' :: rest, acc =>
    match rest with
    | [] => .error "Unterminated string in JSON"
    | e :: r2 =>
      if e = '"' then parseStrAux r2 ('"' :: acc)
      else if e = '\\' then parseStrAux r2 ('\\' :: acc)
      else if e = '/' then parseStrAux r2 ('/' :: acc)
      else if e = 'b' then parseStrAux r2 ('\x08' :: acc)
      else if e = 'f' then parseStrAux r2 ('\x0c' :: acc)
      else if e = 'n' then parseStrAux r2 ('\n' :: acc)
      else if e = 'r' then parseStrAux r2 ('\r' :: acc)
      else if e = 't' then parseStrAux r2 ('\t' :: acc)
      else if e = 'u' then
        match r2 with
        | h1 :: h2 :: h3 :: h4 :: r3 =>
          match hexVal h1, hexVal h2, hexVal h3, hexVal h4 with
          | some a, some b, some c, some d =>
            parseStrAux r3 (Char.ofNat (4096 * a + 256 * b + 16 * c + d) :: acc)
          | _, _, _, _ => .error "Invalid unicode escape in JSON string"
        | _ => .error "Invalid unicode escape in JSON string"
      else .error "Invalid escape in JSON string"
  | c :: rest, acc =>
    if c.toNat < 32 then .error "Unescaped control character in JSON string"
    else parseStrAux rest (c :: acc)

/-- JSON number grammar `-? (0 | [1-9][0-9]*) ('.' [0-9]+)? ([eE][+-]?[0-9]+)?`,
with the value assembled into canonical `(mantissa, exp10)` form. -/
def parseNumber (cs : List Char) : Except String (Json × List Char) :=
  let (neg, cs1) := match cs with
    | '-' :: r => (true, r)
    | _ => (false, cs)
  let ip := cs1.takeWhile isDigitChar
  let cs2 := cs1.dropWhile isDigitChar
  if ip.isEmpty then .error "Expected digit in JSON number"
  else if ip.length > 1 && ip.head? = some '0' then .error "Leading zero in JSON number"
  else
    let fracStep : Except String (List Char × List Char) :=
      match cs2 with
      | '.' :: r =>
        let fd := r.takeWhile isDigitChar
        if fd.isEmpty then .error "Expected digit after decimal point in JSON number"
        else .ok (fd, r.dropWhile isDigitChar)
      | _ => .ok ([], cs2)
    match fracStep with
    | .error m => .error m
    | .ok (fd, cs3) =>
      let expStep : Except String (Int × List Char) :=
        match cs3 with
        | c :: r =>
          if c = 'e' || c = 'E' then
            let (esign, r1) : Int × List Char := match r with
              | '+' :: r2 => (1, r2)
              | '-' :: r2 => (-1, r2)
              | _ => (1, r)
            let ed := r1.takeWhile isDigitChar
            if ed.isEmpty then .error "Expected digit in JSON exponent"
            else .ok (esign * (digitsToNat ed : Int), r1.dropWhile isDigitChar)
          else .ok (0, cs3)
        | [] => .ok (0, cs3)
      match expStep with
      | .error m => .error m
      | .ok (exp, cs4) =>
        let m0 : Int := (digitsToNat ip * 10 ^ fd.length + digitsToNat fd : Nat)
        let m : Int := if neg then -m0 else m0
        let e : Int := exp - (fd.length : Int)
        if 0 ≤ e then .ok (Json.num (m * 10 ^ e.toNat) 0, cs4)
        else
          let (m', p') := normNum m (-e).toNat
          .ok (Json.num m' p', cs4)

/-- Parsing mode: a plain value, the element loop of an array, or the
member loop of an object (each loop carries its accumulator). -/
inductive PMode where
  | value : PMode
  | arrItems : List Json → PMode
  | objItems : List (String × Json) → PMode

/-- Recursive-descent JSON parser (fuel-indexed so the recursion is
structural; the fuel given by `jsonParse` can never run out on real
input). -/
def parseF : Nat → PMode → List Char → Except String (Json × List Char)
  | 0, _, _ => .error "Maximum nesting depth exceeded"
  | Nat.succ f, PMode.value, cs =>
    match cs with
    | [] => .error "Unexpected end of JSON input"
    | c :: rest =>
      if c = '"' then
        match parseStrAux rest [] with
        | .error m => .error m
        | .ok (s, r) => .ok (Json.str s, r)
      else if c = '[' then
        match skipJsonWs rest with
        | ']' :: r2 => .ok (Json.arr [], r2)
        | cs1 => parseF f (PMode.arrItems []) cs1
      else if c = '{' then
        match skipJsonWs rest with
        | '}' :: r2 => .ok (Json.obj [], r2)
        | cs1 => parseF f (PMode.objItems []) cs1
      else if ['t', 'r', 'u', 'e'].isPrefixOf cs then .ok (Json.bool true, cs.drop 4)
      else if ['f', 'a', 'l', 's', 'e'].isPrefixOf cs then .ok (Json.bool false, cs.drop 5)
      else if ['n', 'u', 'l', 'l'].isPrefixOf cs then .ok (Json.null, cs.drop 4)
      else if c = '-' || isDigitChar c then parseNumber cs
      else .error "Unexpected token in JSON"
  | Nat.succ f, PMode.arrItems acc, cs =>
    match parseF f PMode.value cs with
    | .error m => .error m
    | .ok (v, rest) =>
      match skipJsonWs rest with
      | ',' :: r2 => parseF f (PMode.arrItems (acc ++ [v])) (skipJsonWs r2)
      | ']' :: r2 => .ok (Json.arr (acc ++ [v]), r2)
      | _ => .error "Expected comma or closing bracket in JSON array"
  | Nat.succ f, PMode.objItems acc, cs =>
    match cs with
    | '"' :: rest =>
      match parseStrAux rest [] with
      | .error m => .error m
      | .ok (k, r1) =>
        match skipJsonWs r1 with
        | ':' :: r2 =>
          match parseF f PMode.value (skipJsonWs r2) with
          | .error m => .error m
          | .ok (v, r3) =>
            match skipJsonWs r3 with
            | ',' :: r4 => parseF f (PMode.objItems (alistSet acc k v)) (skipJsonWs r4)
            | '}' :: r4 => .ok (Json.obj (alistSet acc k v), r4)
            | _ => .error "Expected comma or closing brace in JSON object"
        | _ => .error "Expected colon after property name in JSON object"
    | _ => .error "Expected double-quoted property name in JSON object"

/-- The `JSON.parse` builtin: a single value with optional surrounding
whitespace and nothing after it. -/
def jsonParse (s : String) : Except String Json :=
  match parseF (4 * s.data.length + 16) PMode.value (skipJsonWs s.data) with
  | .error m => .error m
  | .ok (v, rest) =>
    if (skipJsonWs rest).isEmpty then .ok v
    else .error "Unexpected non-whitespace character after JSON data"

def hexDigitChar (n : Nat) : Char :=
  if n < 10 then Char.ofNat (48 + n) else Char.ofNat (87 + n)

/-- `JSON.stringify` escaping of one string character. -/
def escapeJsonChar (c : Char) : List Char :=
  if c = '"' then ['\\', '"']
  else if c = '\\' then ['\\', '\\']
  else if c = '\x08' then ['\\', 'b']
  else if c = '\x0c' then ['\\', 'f']
  else if c = '\n' then ['\\', 'n']
  else if c = '\r' then ['\\', 'r']
  else if c = '\t' then ['\\', 't']
  else if c.toNat < 32 then
    ['\\', 'u', '0', '0', hexDigitChar (c.toNat / 16), hexDigitChar (c.toNat % 16)]
  else [c]

def escapeJsonString (s : String) : String :=
  String.mk (s.data.map escapeJsonChar).flatten

def natDecimalRepr (n : Nat) : String := Nat.repr n

def intRepr (i : Int) : String :=
  if i < 0 then "-" ++ natDecimalRepr i.natAbs else natDecimalRepr i.natAbs

/-- JS decimal rendering of a number value `mantissa / 10 ^ exp10` in
canonical form (integers print without a point; otherwise the digits are
zero-padded and the point inserted `exp10` places from the right, with
no trailing zeros since the mantissa is not divisible by 10). -/
def numToString (m : Int) (p : Nat) : String :=
  if p = 0 then intRepr m
  else
    let s := natDecimalRepr m.natAbs
    let s := if s.length ≤ p then String.mk (List.replicate (p + 1 - s.length) '0') ++ s else s
    let intPart := String.mk (s.data.take (s.length - p))
    let fracPart := String.mk (s.data.drop (s.length - p))
    (if m < 0 then "-" else "") ++ intPart ++ "." ++ fracPart

/-- Template-literal stringification (`${value}` / `String(value)`):
strings pass through unescaped, arrays join their members with commas
(`null` members print empty, as `Array.prototype.join` does), plain
objects print `[object Object]`. -/
def jsToString : Json → String
  | Json.null => "null"
  | Json.bool b => if b then "true" else "false"
  | Json.num m p => numToString m p
  | Json.str s => s
  | Json.arr xs => joinWithComma (jsToStringElems xs)
  | Json.obj _ => "[object Object]"
where
  /-- `Array.prototype.join` member rendering (`null` prints empty). -/
  jsToStringElems : List Json → List String
  | [] => []
  | Json.null :: rest => "" :: jsToStringElems rest
  | v :: rest => jsToString v :: jsToStringElems rest

/-- Compact `JSON.stringify`. -/
def jsonStringify : Json → String
  | Json.null => "null"
  | Json.bool b => if b then "true" else "false"
  | Json.num m p => numToString m p
  | Json.str s => "\"" ++ escapeJsonString s ++ "\""
  | Json.arr xs => "[" ++ joinWithComma (stringifyElems xs) ++ "]"
  | Json.obj fs => "\x7b" ++ joinWithComma (stringifyMembers fs) ++ "\x7d"
where
  stringifyElems : List Json → List String
  | [] => []
  | v :: rest => jsonStringify v :: stringifyElems rest
  stringifyMembers : List (String × Json) → List String
  | [] => []
  | (k, v) :: rest =>
    ("\"" ++ escapeJsonString k ++ "\":" ++ jsonStringify v) :: stringifyMembers rest

/-! ## ConfigParser (`parseJsonWithComments`) -/

/-- The comment-stripped, newline-joined candidate JSON text
(`cleanedJson` in the source). -/
def cleanedText (text : String) : String :=
  joinLines ((splitLines text).map stripLine)

/-- `parseJsonWithComments`: scan the raw lines for the section index,
strip comments, `JSON.parse` the result; on failure throw a single error
wrapping the underlying parser's message. -/
def parseJsonWithComments (text : String) :
    Except String (Json × List (String × List String)) :=
  let sections := scanSections (splitLines text)
  match jsonParse (cleanedText text) with
  | .ok data => .ok (data, sections)
  | .error m => .error ("Invalid JSON format: " ++ m)

/-! ## KeyClassifier -/

/-- `key.replace('$', '')`: a string pattern replaces only the first
occurrence, anywhere in the string. -/
def removeFirstDollarAux : List Char → List Char
  | [] => []
  | '$' :: rest => rest
  | c :: rest => c :: removeFirstDollarAux rest

def removeFirstDollar (s : String) : String :=
  String.mk (removeFirstDollarAux s.data)

/-- `key.replace(/^\$/, '')`: anchored, so only a leading `$` is removed. -/
def stripLeadingDollar (s : String) : String :=
  match s.data with
  | '$' :: rest => String.mk rest
  | _ => s

def recognizedSuffixes : List String :=
  ["hud", "counter", "timer", "list", "menu", "doll", "slots"]

/-- The inline sub-setting classification of `serializeWithComments`:
`keyParts.length > 2 || (keyParts.length === 2 && !allowList.includes(keyParts[1]))`. -/
def isSubSetting (key : String) : Bool :=
  let keyParts := splitOnUnderscore (removeFirstDollar key)
  decide (keyParts.length > 2) ||
    (decide (keyParts.length = 2) && !(recognizedSuffixes.contains (keyParts.getD 1 "")))

/-- ECMAScript `\w` (letters, digits, underscore). -/
def wordCharB (c : Char) : Bool :=
  ('a' ≤ c && c ≤ 'z') || ('A' ≤ c && c ≤ 'Z') || ('0' ≤ c && c ≤ '9') || c = '_'

def upperAscii (c : Char) : Char :=
  if 'a' ≤ c && c ≤ 'z' then Char.ofNat (c.toNat - 32) else c

/-- `.replace(/\b\w/g, c => c.toUpperCase())`: every single-character
match of `\b\w` is a word character at the start of the string or whose
predecessor is not a word character; `prev` carries the predecessor. -/
def upperWordStarts : Option Char → List Char → List Char
  | _, [] => []
  | prev, c :: rest =>
    let boundary := match prev with
      | none => true
      | some p => !wordCharB p
    (if wordCharB c && boundary then upperAscii c else c) :: upperWordStarts (some c) rest

/-- `formatKeyName`: strip a leading `$`, underscores to spaces,
upper-case at `\b\w` matches. -/
def formatKeyName (key : String) : String :=
  String.mk (upperWordStarts none ((stripLeadingDollar key).data.map
    (fun c => if c = '_' then ' ' else c)))

/-- `isChildSetting`: candidate parent = `$` + first two `_`-segments;
child iff the candidate differs from the key and occurs in `allKeys`. -/
def isChildSetting (key : String) (allKeys : List String) : Bool :=
  let baseName := joinUnderscore ((splitOnUnderscore (stripLeadingDollar key)).take 2)
  let parentKey := "$" ++ baseName
  decide (key ≠ parentKey) && allKeys.contains parentKey

/-! ## ConfigSerializer (`serializeWithComments`) -/

/-- The encoded value text of one emitted key line: the `typeof` chain
of the source (arrays first, with `[]` special-cased; then non-null
objects via compact `JSON.stringify`; strings re-quoted with **no**
escaping; everything else — numbers, booleans, `null` — via
template-literal stringification). -/
def jsonValueText (value : Json) : String :=
  match value with
  | Json.arr [] => "[]"
  | Json.arr xs => jsonStringify (Json.arr xs)
  | Json.obj fs => jsonStringify (Json.obj fs)
  | Json.str s => "\"" ++ s ++ "\""
  | v => jsToString v

/-- One emitted key line
`` `${indent}"${key}": ${encoded value}${comma}` `` — `none` when the
key is absent from `data` (the source's `value === undefined` skip). -/
def keyLine (data : List (String × Json)) (key : String) (comma : String) :
    Option String :=
  match alistLookup data key with
  | none => none
  | some value =>
    let indent := if isSubSetting key then "    " else "  "
    some (indent ++ "\"" ++ key ++ "\": " ++ jsonValueText value ++ comma)

/-- The key loop of one section: `idx` tracks the `forEach` index,
`processed` the `processedKeys` set (keys already consumed are skipped;
a key is marked consumed before the `undefined` check, exactly as in the
source).  Returns the emitted lines and the updated `processed`. -/
def emitKeys (data : List (String × Json)) (isLastSection : Bool) (total : Nat) :
    List (Nat × String) → List String → List String × List String
  | [], processed => ([], processed)
  | (idx, key) :: rest, processed =>
    if processed.contains key then emitKeys data isLastSection total rest processed
    else
      let processed' := processed ++ [key]
      let isLast := decide (idx = total - 1) && isLastSection
      let comma := if isLast then "" else ","
      match keyLine data key comma with
      | none => emitKeys data isLastSection total rest processed'
      | some l =>
        let (ls, pfinal) := emitKeys data isLastSection total rest processed'
        (l :: ls, pfinal)

/-- The lines one section contributes: a `  // name` header for every
section other than `"General"`, the key lines, and a trailing blank
line. -/
def sectionChunk (data : List (String × Json)) (lastName : Option String)
    (processed : List String) (sec : String × List String) :
    List String × List String :=
  let header := if sec.1 ≠ "General" then ["  // " ++ sec.1] else []
  let (keyLines, processed') :=
    emitKeys data (lastName = some sec.1) sec.2.length sec.2.enum processed
  (header ++ keyLines ++ [""], processed')

/-- `sections.forEach(...)`, threading `processedKeys`. -/
def serializeAllSections (data : List (String × Json)) (lastName : Option String) :
    List (String × List String) → List String → List String × List String
  | [], processed => ([], processed)
  | sec :: rest, processed =>
    let (chunk, p') := sectionChunk data lastName processed sec
    let (chunks, p'') := serializeAllSections data lastName rest p'
    (chunk ++ chunks, p'')

/-- The `while (lines[lines.length-1] === '') lines.pop()` loop. -/
def dropTrailingEmpty (ls : List String) : List String :=
  (ls.reverse.dropWhile (fun s => s = "")).reverse

/-- The full line buffer of `serializeWithComments` before the
trailing-blank cleanup: the opening brace, the version-first lines when
`$bb_version` is present in `data`, and every section's chunk
(`processedKeys` starts out holding `$bb_version`). -/
def serializeLines (data : List (String × Json))
    (sections : List (String × List String)) : List String :=
  let versionLines :=
    match alistLookup data "$bb_version" with
    | some v => ["  \"$bb_version\": \"" ++ jsToString v ++ "\",", ""]
    | none => []
  let lastName := (sections.map Prod.fst).getLast?
  "\x7b" :: (versionLines ++
    (serializeAllSections data lastName sections ["$bb_version"]).1)

/-- `serializeWithComments`: drop trailing blank lines, remove one
trailing comma from the last line if present, close the brace.  The
result is `none` exactly when the source would crash dereferencing
`lines[lines.length-1]` on an empty buffer (provably unreachable: see
the claim on error handling). -/
def serializeWithComments (data : List (String × Json))
    (sections : List (String × List String)) : Option String :=
  let lines := dropTrailingEmpty (serializeLines data sections)
  match lines.getLast? with
  | none => none
  | some lastLine =>
    let fixed :=
      if lastLine.data.getLast? = some ',' then
        lines.dropLast ++ [String.mk lastLine.data.dropLast]
      else lines
    some (joinLines (fixed ++ ["\x7d"]))

/-! ## Derived notions used to state the claims -/

/-- `Except` success as a Boolean. -/
def exceptIsOk {ε α : Type} : Except ε α → Bool
  | .ok _ => true
  | .error _ => false

/-- Position `n` of `line` starts a comment for the stripper: it holds
`//` and lies outside any string literal (per the stripper's state). -/
def commentStartAt (line : List Char) (n : Nat) : Prop :=
  line.get? n = some '/' ∧ line.get? (n + 1) = some '/' ∧ inLiteralAt line n = false

instance (line : List Char) (n : Nat) : Decidable (commentStartAt line n) := by
  unfold commentStartAt
  infer_instance

/-- The last value committed for key `k` in a sequence of commit events
(`none` when `k` is never committed). -/
def lastVal {α : Type} : List (String × α) → String → Option α
  | [], _ => none
  | (k', v) :: rest, k =>
    match lastVal rest k with
    | some w => some w
    | none => if k' = k then some v else none

/-- Append a key if it is not present yet. -/
def insNew (ks : List String) (k : String) : List String :=
  if k ∈ ks then ks else ks ++ [k]

/-- The distinct names of a sequence, in order of first appearance. -/
def firstOccurrences (ks : List String) : List String :=
  ks.foldl insNew []

/-- No line before the first section-header line is a key-declaration
line (the hypothesis of the "no `General` entry" part of the
section-invariant claim). -/
def noKeyBeforeFirstHeader (lines : List String) : Prop :=
  ∀ l ∈ lines.takeWhile (fun l => (sectionHeaderName (jsTrim l).data).isNone),
    keyLineMatch (jsTrim l).data = none

/-- The indentation condition exactly as the indentation claim words it:
the key, after removing `$`, has two underscore-separated segments whose
second is a recognized category suffix, or has at most one segment. -/
def claimTopLevel (key : String) : Bool :=
  match splitOnUnderscore (removeFirstDollar key) with
  | [] => true
  | [_] => true
  | [_, s] => recognizedSuffixes.contains s
  | _ => false

/-- Number of leading spaces of an emitted line. -/
def countLeadingSpaces (s : String) : Nat :=
  (s.data.takeWhile (fun c => c = ' ')).length

/-- Word-start uppercasing described positionally: a character is
uppercased iff it is a word character whose predecessor (if any) is not
a word character.  Used to compare `formatKeyName` against the amended
word-boundary description. -/
def wordStartUpper (l : List Char) : List Char :=
  (l.zip (none :: l.map some)).map (fun cp =>
    if wordCharB cp.1 && !((cp.2.map wordCharB).getD false) then upperAscii cp.1 else cp.1)

/-- `formatKeyName` as the amended claim describes it: strip a leading
`$`, underscores to spaces, and upper-case every letter at the start of
the string or following a non-word character. -/
def formatKeyNameWordBoundary (key : String) : String :=
  String.mk (wordStartUpper ((stripLeadingDollar key).data.map
    (fun c => if c = '_' then ' ' else c)))

/-! ## The spec's scenario input and its round trip -/

/-- The six-line scenario input of the spec (§8). -/
def scenarioInput : String :=
  "\x7b\n// MODS\n\"$bb_version\": \"1.0\",\n\"$weapon_hud\": true, // toggles HUD\n\"$weapon_hud_offset\": 5\n\x7d"

/-- The value map the scenario parses to. -/
def scenarioData : List (String × Json) :=
  [("$bb_version", Json.str "1.0"), ("$weapon_hud", Json.bool true),
   ("$weapon_hud_offset", Json.num 5 0)]

/-- The section index the scenario parses to: the `// MODS` header
precedes every key line, so all three keys (including `$bb_version`)
are filed under `MODS` and no `General` entry exists. -/
def scenarioSections : List (String × List String) :=
  [("MODS", ["$bb_version", "$weapon_hud", "$weapon_hud_offset"])]

/-- The text `serializeWithComments` produces from the scenario's parse
result. -/
def scenarioReserialized : String :=
  "\x7b\n  \"$bb_version\": \"1.0\",\n\n  // MODS\n  \"$weapon_hud\": true,\n    \"$weapon_hud_offset\": 5\n\x7d"

/-- The section index obtained by re-parsing the serialized text:
`$bb_version` is emitted before the `// MODS` header and is re-filed
under `General`. -/
def scenarioSectionsAfter : List (String × List String) :=
  [("General", ["$bb_version"]), ("MODS", ["$weapon_hud", "$weapon_hud_offset"])]

/-! ## General lemmas about the insertion-ordered map -/

theorem alistLookup_alistSet_self {α : Type} (m : List (String × α)) (k : String) (v : α) :
    alistLookup (alistSet m k v) k = some v := by
  induction m with
  | nil => simp [alistSet, alistLookup]
  | cons e rest ih =>
    obtain ⟨k', v'⟩ := e
    by_cases h : k' = k
    · simp [alistSet, alistLookup, h]
    · simp [alistSet, alistLookup, h, ih]

theorem alistLookup_alistSet_ne {α : Type} (m : List (String × α)) (k q : String) (v : α)
    (h : q ≠ k) : alistLookup (alistSet m k v) q = alistLookup m q := by
  have hkq : ¬(k = q) := fun hh => h hh.symm
  induction m with
  | nil => simp [alistSet, alistLookup, hkq]
  | cons e rest ih =>
    obtain ⟨k', v'⟩ := e
    by_cases hk : k' = k
    · subst hk
      simp [alistSet, alistLookup, hkq]
    · simp [alistSet, alistLookup, hk, ih]

theorem mem_alistSet {α : Type} (m : List (String × α)) (k : String) (v : α)
    (e : String × α) (he : e ∈ alistSet m k v) : e = (k, v) ∨ e ∈ m := by
  induction m with
  | nil =>
    simp only [alistSet, List.mem_singleton] at he
    exact Or.inl he
  | cons p rest ih =>
    obtain ⟨k', v'⟩ := p
    by_cases h : k' = k
    · subst h
      simp [alistSet] at he
      rcases he with h1 | h2
      · exact Or.inl (by simp [h1])
      · exact Or.inr (List.mem_cons_of_mem _ h2)
    · simp [alistSet, h] at he
      rcases he with h1 | h2
      · refine Or.inr ?_
        rw [h1]
        exact List.mem_cons_self _ _
      · rcases ih h2 with h3 | h4
        · exact Or.inl h3
        · exact Or.inr (List.mem_cons_of_mem _ h4)

theorem alistSet_map_fst {α : Type} (m : List (String × α)) (k : String) (v : α) :
    (alistSet m k v).map Prod.fst = insNew (m.map Prod.fst) k := by
  induction m with
  | nil => simp [alistSet, insNew]
  | cons e rest ih =>
    obtain ⟨k', v'⟩ := e
    by_cases h : k' = k
    · subst h
      simp [alistSet, insNew]
    · have hne : ¬(k = k') := fun hh => h hh.symm
      simp only [alistSet, if_neg h, List.map_cons, ih, insNew, List.mem_cons]
      by_cases hm : k ∈ rest.map Prod.fst
      · simp [hm, hne]
      · simp [hm, hne]

theorem foldl_alistSet_lookup {α : Type} (cs : List (String × α)) (m : List (String × α))
    (k : String) :
    alistLookup (cs.foldl (fun m e => alistSet m e.1 e.2) m) k =
      (match lastVal cs k with
       | some w => some w
       | none => alistLookup m k) := by
  induction cs generalizing m with
  | nil => simp [lastVal]
  | cons e rest ih =>
    obtain ⟨k', v⟩ := e
    rw [List.foldl_cons, ih]
    cases h : lastVal rest k with
    | some w => simp [lastVal, h]
    | none =>
      simp only [lastVal, h]
      by_cases hk : k' = k
      · subst hk
        simp [alistLookup_alistSet_self]
      · have hkk : k ≠ k' := fun hh => hk hh.symm
        simp [hk, alistLookup_alistSet_ne _ _ _ _ hkk]

theorem foldl_alistSet_map_fst {α : Type} (cs : List (String × α)) (m : List (String × α)) :
    ((cs.foldl (fun m e => alistSet m e.1 e.2) m).map Prod.fst) =
      (cs.map Prod.fst).foldl insNew (m.map Prod.fst) := by
  induction cs generalizing m with
  | nil => simp
  | cons e rest ih =>
    rw [List.foldl_cons, ih, List.map_cons, List.foldl_cons, alistSet_map_fst]

theorem mem_foldl_alistSet {α : Type} (cs : List (String × α)) (m : List (String × α))
    (e : String × α) (he : e ∈ cs.foldl (fun m e => alistSet m e.1 e.2) m) :
    e ∈ m ∨ e ∈ cs := by
  induction cs generalizing m with
  | nil => exact Or.inl he
  | cons p rest ih =>
    rw [List.foldl_cons] at he
    rcases ih _ he with h1 | h2
    · rcases mem_alistSet _ _ _ _ h1 with h3 | h4
      · exact Or.inr (h3 ▸ List.mem_cons_self _ _)
      · exact Or.inl h4
    · exact Or.inr (List.mem_cons_of_mem _ h2)

theorem lastVal_append {α : Type} (a b : List (String × α)) (k : String) :
    lastVal (a ++ b) k =
      (match lastVal b k with
       | some w => some w
       | none => lastVal a k) := by
  induction a with
  | nil => cases h : lastVal b k <;> simp [lastVal, h]
  | cons e rest ih =>
    obtain ⟨k', v⟩ := e
    simp only [List.cons_append, lastVal, List.append_eq]
    rw [ih]
    cases h : lastVal b k <;> cases h2 : lastVal rest k <;> simp [h, h2]

theorem lastVal_eq_none {α : Type} (a : List (String × α)) (k : String)
    (h : k ∉ a.map Prod.fst) : lastVal a k = none := by
  induction a with
  | nil => rfl
  | cons e rest ih =>
    obtain ⟨k', v⟩ := e
    simp only [List.map_cons, List.mem_cons] at h
    push_neg at h
    have h1 : ¬(k' = k) := fun hh => h.1 hh.symm
    simp [lastVal, ih h.2, h1]

theorem mem_foldl_insNew (ks : List String) (init : List String) (k : String)
    (h : k ∈ ks.foldl insNew init) : k ∈ init ∨ k ∈ ks := by
  induction ks generalizing init with
  | nil => exact Or.inl h
  | cons a rest ih =>
    rw [List.foldl_cons] at h
    rcases ih _ h with h1 | h2
    · unfold insNew at h1
      split at h1
      · exact Or.inl h1
      · rcases List.mem_append.mp h1 with h3 | h4
        · exact Or.inl h3
        · simp only [List.mem_singleton] at h4
          exact Or.inr (h4 ▸ List.mem_cons_self _ _)
    · exact Or.inr (List.mem_cons_of_mem _ h2)

/-! ## Lemmas about the scanner -/

theorem scanAux_eq_commits (lines : List String) :
    ∀ secs cur acc, scanAux lines secs cur acc =
      (scanCommitsAux lines cur acc).foldl (fun m e => alistSet m e.1 e.2) secs := by
  induction lines with
  | nil =>
    intro secs cur acc
    by_cases h : acc.isEmpty <;> simp [scanAux, scanCommitsAux, h]
  | cons line rest ih =>
    intro secs cur acc
    cases hh : sectionHeaderName (jsTrim line).data with
    | some name =>
      simp only [scanAux, scanCommitsAux, hh]
      rw [List.foldl_append]
      by_cases h : acc.isEmpty <;> simp [h, ih]
    | none =>
      cases hk : keyLineMatch (jsTrim line).data <;>
        simp [scanAux, scanCommitsAux, hh, hk, ih]

theorem scanSections_eq_commits (lines : List String) :
    scanSections lines =
      (scanCommits lines).foldl (fun m e => alistSet m e.1 e.2) [] :=
  scanAux_eq_commits lines [] "General" []

theorem scanCommitsAux_values_ne_nil (lines : List String) :
    ∀ cur acc e, e ∈ scanCommitsAux lines cur acc → e.2 ≠ [] := by
  induction lines with
  | nil =>
    intro cur acc e he
    by_cases h : acc.isEmpty
    · simp [scanCommitsAux, h] at he
    · simp only [scanCommitsAux, if_neg h, List.mem_singleton] at he
      subst he
      simpa [List.isEmpty_iff] using h
  | cons line rest ih =>
    intro cur acc e he
    cases hh : sectionHeaderName (jsTrim line).data with
    | some name =>
      simp only [scanCommitsAux, hh] at he
      rcases List.mem_append.mp he with h1 | h2
      · by_cases h : acc.isEmpty
        · simp [h] at h1
        · simp only [if_neg h, List.mem_singleton] at h1
          subst h1
          simpa [List.isEmpty_iff] using h
      · exact ih _ _ _ h2
    | none =>
      simp only [scanCommitsAux, hh] at he
      cases hk : keyLineMatch (jsTrim line).data with
      | some k =>
        rw [hk] at he
        exact ih _ _ _ he
      | none =>
        rw [hk] at he
        exact ih _ _ _ he

theorem mem_dropWhile_of_mem (p : Char → Bool) (l : List Char) (c : Char)
    (hc : c ∈ l) (hp : p c = false) : c ∈ l.dropWhile p := by
  induction l with
  | nil => cases hc
  | cons a rest ih =>
    by_cases h : p a
    · rw [List.dropWhile_cons_of_pos h]
      rcases List.mem_cons.mp hc with h1 | h2
      · subst h1
        rw [hp] at h
        cases h
      · exact ih h2
    · rw [List.dropWhile_cons_of_neg (by simpa using h)]
      exact hc

theorem mem_jsTrimList (l : List Char) (c : Char) (hc : c ∈ l)
    (hw : jsWhitespace c = false) : c ∈ jsTrimList l := by
  unfold jsTrimList trimRightList
  have h1 : c ∈ l.dropWhile jsWhitespace := mem_dropWhile_of_mem _ _ _ hc hw
  have h2 : c ∈ (l.dropWhile jsWhitespace).reverse := List.mem_reverse.mpr h1
  exact List.mem_reverse.mpr (mem_dropWhile_of_mem _ _ _ h2 hw)

theorem mem_of_mem_jsTrimList (l : List Char) (c : Char) (hc : c ∈ jsTrimList l) :
    c ∈ l := by
  unfold jsTrimList trimRightList at hc
  have h1 := List.mem_reverse.mp hc
  have h2 := (List.dropWhile_sublist _).mem h1
  have h3 := List.mem_reverse.mp h2
  exact (List.dropWhile_sublist _).mem h3

theorem sectionHeaderName_ne_general (s : List Char) (n : String)
    (h : sectionHeaderName s = some n) : n ≠ "General" := by
  intro hgen
  subst hgen
  simp only [sectionHeaderName] at h
  split at h
  · split at h
    · cases h
    · split at h
      · simp only [Option.some_inj] at h
        have hdata := congrArg String.data h
        have he2 := mem_of_mem_jsTrimList _ _
          (hdata.symm ▸ (by decide : 'e' ∈ "General".data))
        exact absurd (List.mem_takeWhile_imp he2) (by decide)
      · split at h
        · split at h
          · simp only [Option.some_inj] at h
            have hdata := congrArg String.data h
            have hm : '-' ∈ "General".data := by
              rw [← hdata]
              exact mem_jsTrimList _ _ (by simp) (by decide)
            simp at hm
          · cases h
        · cases h
  · cases h


theorem scanCommitsAux_fst_ne (lines : List String) :
    ∀ cur acc, cur ≠ "General" → ∀ e ∈ scanCommitsAux lines cur acc, e.1 ≠ "General" := by
  induction lines with
  | nil =>
    intro cur acc hcur e he
    by_cases h : acc.isEmpty
    · simp [scanCommitsAux, h] at he
    · simp only [scanCommitsAux, if_neg h, List.mem_singleton] at he
      subst he
      exact hcur
  | cons line rest ih =>
    intro cur acc hcur e he
    cases hh : sectionHeaderName (jsTrim line).data with
    | some name =>
      simp only [scanCommitsAux, hh] at he
      rcases List.mem_append.mp he with h1 | h2
      · by_cases h : acc.isEmpty
        · simp [h] at h1
        · simp only [if_neg h, List.mem_singleton] at h1
          subst h1
          exact hcur
      · exact ih _ _ (sectionHeaderName_ne_general _ _ hh) _ h2
    | none =>
      simp only [scanCommitsAux, hh] at he
      cases hk : keyLineMatch (jsTrim line).data with
      | some k =>
        rw [hk] at he
        exact ih _ _ hcur _ he
      | none =>
        rw [hk] at he
        exact ih _ _ hcur _ he

theorem scanCommits_fst_ne_general (lines : List String) :
    noKeyBeforeFirstHeader lines → ∀ e ∈ scanCommits lines, e.1 ≠ "General" := by
  unfold scanCommits
  induction lines with
  | nil =>
    intro _ e he
    simp [scanCommitsAux] at he
  | cons line rest ih =>
    intro hnk e he
    cases hh : sectionHeaderName (jsTrim line).data with
    | some name =>
      simp only [scanCommitsAux, hh, List.isEmpty_nil, if_pos, List.nil_append] at he
      exact scanCommitsAux_fst_ne rest name [] (sectionHeaderName_ne_general _ _ hh) e he
    | none =>
      have hpred : (sectionHeaderName (jsTrim line).data).isNone = true := by
        simp [hh]
      have htw : (line :: rest).takeWhile
            (fun l => (sectionHeaderName (jsTrim l).data).isNone) =
          line :: rest.takeWhile (fun l => (sectionHeaderName (jsTrim l).data).isNone) :=
        List.takeWhile_cons_of_pos hpred
      have hkey : keyLineMatch (jsTrim line).data = none := by
        refine hnk line ?_
        rw [htw]
        exact List.mem_cons_self _ _
      have hrest : noKeyBeforeFirstHeader rest := by
        intro l hl
        refine hnk l ?_
        rw [htw]
        exact List.mem_cons_of_mem _ hl
      simp only [scanCommitsAux, hh, hkey] at he
      exact ih hrest e he

/-- **C9.** Every section name present in the index produced by the
scanner maps to a nonempty key list (the accumulator is committed only
when it holds at least one key); and when no key-declaration line
precedes the first header line, the index has no `"General"` entry at
all (header names can never equal `"General"`, since the capital run of
a header match is all uppercase and a dash-qualified name contains a
dash). -/
theorem claim_C9_nonempty_sections (lines : List String) :
    (∀ name keys, (name, keys) ∈ scanSections lines → keys ≠ []) ∧
    (noKeyBeforeFirstHeader lines →
      "General" ∉ (scanSections lines).map Prod.fst) := by
  constructor
  · intro name keys hm
    rw [scanSections_eq_commits] at hm
    rcases mem_foldl_alistSet _ _ _ hm with h1 | h2
    · cases h1
    · exact scanCommitsAux_values_ne_nil lines _ _ _ h2
  · intro hnk hmem
    rw [scanSections_eq_commits, foldl_alistSet_map_fst] at hmem
    rcases mem_foldl_insNew _ _ _ hmem with h1 | h2
    · simp at h1
    · rcases List.mem_map.mp h2 with ⟨e, he, hfst⟩
      exact scanCommits_fst_ne_general lines hnk e he hfst

/-- Witness for C9: on a concrete file whose only key follows the
`// MODS` header, the `MODS` entry is nonempty and no `General` entry
exists. -/
theorem claim_C9_nonempty_sections_witness :
    (("MODS", ["$a_hud"]) ∈ scanSections ["\x7b", "// MODS", "\"$a_hud\": 1", "\x7d"] ∧
      ["$a_hud"] ≠ ([] : List String)) ∧
    (noKeyBeforeFirstHeader ["\x7b", "// MODS", "\"$a_hud\": 1", "\x7d"] ∧
      "General" ∉ (scanSections ["\x7b", "// MODS", "\"$a_hud\": 1", "\x7d"]).map Prod.fst) := by
  refine ⟨⟨by decide, ?_⟩, ⟨?_, ?_⟩⟩
  · exact (claim_C9_nonempty_sections ["\x7b", "// MODS", "\"$a_hud\": 1", "\x7d"]).1
      "MODS" ["$a_hud"] (by decide)
  · unfold noKeyBeforeFirstHeader
    decide
  · refine (claim_C9_nonempty_sections ["\x7b", "// MODS", "\"$a_hud\": 1", "\x7d"]).2 ?_
    unfold noKeyBeforeFirstHeader
    decide

/-- **C3.** If the scanner commits two key lists under the same section
name `X` (two occurrences of the header, each followed by at least one
key line), the final index maps `X` to the *later* committed list alone
(last-write-wins, not concatenation), and the iteration order of the
index is the order of first appearance of the committed names. -/
theorem claim_C3_last_write_wins (lines : List String) (X : String)
    (pre mid post : List (String × List String)) (v₁ v₂ : List String)
    (hc : scanCommits lines = pre ++ (X, v₁) :: mid ++ (X, v₂) :: post)
    (hpost : X ∉ post.map Prod.fst) :
    alistLookup (scanSections lines) X = some v₂ ∧
    v₂ ≠ v₁ ++ v₂ ∧
    (scanSections lines).map Prod.fst =
      firstOccurrences ((scanCommits lines).map Prod.fst) := by
  have h1 : lastVal ((X, v₂) :: post) X = some v₂ := by
    simp [lastVal, lastVal_eq_none post X hpost]
  refine ⟨?_, ?_, ?_⟩
  · rw [scanSections_eq_commits, foldl_alistSet_lookup, hc, lastVal_append,
      lastVal_append, h1]
  · have hv₁ : (X, v₁) ∈ scanCommits lines := by
      rw [hc]
      simp
    have hne : v₁ ≠ [] := scanCommitsAux_values_ne_nil lines _ _ _ hv₁
    intro hcontra
    have hlen := congrArg List.length hcontra
    rw [List.length_append] at hlen
    have hz : v₁.length = 0 := by omega
    exact hne (List.length_eq_zero.mp hz)
  · rw [scanSections_eq_commits, foldl_alistSet_map_fst]
    rfl

/-- Witness for C3: the header `// AA` occurs twice non-contiguously,
each occurrence followed by one key; the index stores only the later
list `["$k3"]` under `AA`, and `AA` sits at its first-appearance
position. -/
theorem claim_C3_last_write_wins_witness :
    alistLookup (scanSections
        ["// AA", "\"$k1\": 1,", "// BB", "\"$k2\": 1,", "// AA", "\"$k3\": 1"]) "AA" =
      some ["$k3"] ∧
    ["$k3"] ≠ ["$k1"] ++ ["$k3"] ∧
    (scanSections
        ["// AA", "\"$k1\": 1,", "// BB", "\"$k2\": 1,", "// AA", "\"$k3\": 1"]).map
        Prod.fst =
      firstOccurrences ((scanCommits
        ["// AA", "\"$k1\": 1,", "// BB", "\"$k2\": 1,", "// AA", "\"$k3\": 1"]).map
        Prod.fst) :=
  claim_C3_last_write_wins _ "AA" [] [("BB", ["$k2"])] [] ["$k1"] ["$k3"]
    (by decide) (by decide)


/-! ## Lemmas about the comment stripper -/

theorem stripChars_isPrefix (l : List Char) :
    ∀ s p, List.IsPrefix (stripChars l s p) l := by
  induction l with
  | nil =>
    intro s p
    simp [stripChars]
  | cons c rest ih =>
    intro s p
    simp only [stripChars]
    split
    · exact List.cons_prefix_cons.mpr ⟨rfl, ih _ _⟩
    · split
      · exact List.nil_prefix
      · exact List.cons_prefix_cons.mpr ⟨rfl, ih _ _⟩

theorem stripChars_eq_take (l : List Char) : ∀ s p,
    stripChars l s p =
      (match firstCommentIdx l s p with
       | none => l
       | some n => l.take n) := by
  induction l with
  | nil =>
    intro s p
    simp [stripChars, firstCommentIdx]
  | cons c rest ih =>
    intro s p
    simp only [stripChars, firstCommentIdx]
    split
    · cases h : firstCommentIdx rest (!s) (some c) with
      | none => simp [ih, h]
      | some n => simp [ih, h, List.take_succ_cons]
    · split
      · simp
      · cases h : firstCommentIdx rest s (some c) with
        | none => simp [ih, h]
        | some n => simp [ih, h, List.take_succ_cons]

theorem literalState_cons (c : Char) (rest : List Char) (s : Bool) (p : Option Char) :
    literalState (c :: rest) s p =
      literalState rest (if c = '"' && p ≠ some '\\' then !s else s) (some c) := by
  simp only [literalState]
  split <;> simp [*]

theorem firstCommentIdx_none_spec (l : List Char) : ∀ s p, firstCommentIdx l s p = none →
    ∀ n, ¬(l.get? n = some '/' ∧ l.get? (n + 1) = some '/' ∧
      literalState (l.take n) s p = false) := by
  induction l with
  | nil =>
    intro s p _ n hcontra
    simp at hcontra
  | cons c rest ih =>
    intro s p h n hcontra
    simp only [firstCommentIdx] at h
    split at h
    · rename_i hq
      simp only [Bool.and_eq_true, decide_eq_true_eq] at hq
      cases n with
      | zero =>
        obtain ⟨hc1, _, _⟩ := hcontra
        rw [List.get?_cons_zero, Option.some_inj] at hc1
        rw [hc1] at hq
        exact absurd hq.1 (by decide)
      | succ m =>
        obtain ⟨hc1, hc2, hc3⟩ := hcontra
        rw [List.take_succ_cons, literalState_cons] at hc3
        have hcond : (c = '"' && p ≠ some '\\') = true := by
          simp [hq.1, hq.2]
        rw [hcond] at hc3
        refine ih (!s) (some c) (by simpa using h) m ⟨?_, ?_, ?_⟩
        · simpa using hc1
        · simpa using hc2
        · simpa using hc3
    · split at h
      · cases h
      · rename_i hq hcm
        cases n with
        | zero =>
          obtain ⟨hc1, hc2, hc3⟩ := hcontra
          rw [List.get?_cons_zero, Option.some_inj] at hc1
          simp only [List.take_zero, literalState] at hc3
          rw [List.get?_cons_succ, List.get?_eq_getElem?, ← List.head?_eq_getElem?] at hc2
          exact hcm (by simp [hc1, hc2, hc3])
        | succ m =>
          obtain ⟨hc1, hc2, hc3⟩ := hcontra
          rw [List.take_succ_cons, literalState_cons] at hc3
          have hcond : (c = '"' && p ≠ some '\\') = false := by
            simpa using hq
          rw [hcond] at hc3
          refine ih s (some c) (by simpa using h) m ⟨?_, ?_, ?_⟩
          · simpa using hc1
          · simpa using hc2
          · simpa using hc3

theorem firstCommentIdx_spec (l : List Char) : ∀ s p n, firstCommentIdx l s p = some n →
    l.get? n = some '/' ∧ l.get? (n + 1) = some '/' ∧
      literalState (l.take n) s p = false ∧
      ∀ m, m < n → ¬(l.get? m = some '/' ∧ l.get? (m + 1) = some '/' ∧
        literalState (l.take m) s p = false) := by
  induction l with
  | nil =>
    intro s p n h
    simp [firstCommentIdx] at h
  | cons c rest ih =>
    intro s p n h
    simp only [firstCommentIdx] at h
    split at h
    · rename_i hq
      simp only [Bool.and_eq_true, decide_eq_true_eq] at hq
      cases hrec : firstCommentIdx rest (!s) (some c) with
      | none =>
        rw [hrec] at h
        cases h
      | some n' =>
        rw [hrec] at h
        simp only [Option.map_some', Option.some_inj] at h
        subst h
        obtain ⟨h1, h2, h3, h4⟩ := ih (!s) (some c) n' hrec
        have hcond : (c = '"' && p ≠ some '\\') = true := by
          simp [hq.1, hq.2]
        refine ⟨by simpa using h1, by simpa using h2, ?_, ?_⟩
        · rw [List.take_succ_cons, literalState_cons, hcond]
          exact h3
        · intro m hm hcontra
          cases m with
          | zero =>
            obtain ⟨hc1, _, _⟩ := hcontra
            rw [List.get?_cons_zero, Option.some_inj] at hc1
            rw [hc1] at hq
            exact absurd hq.1 (by decide)
          | succ m' =>
            obtain ⟨hc1, hc2, hc3⟩ := hcontra
            rw [List.take_succ_cons, literalState_cons, hcond] at hc3
            exact h4 m' (by omega) ⟨by simpa using hc1, by simpa using hc2, hc3⟩
    · split at h
      · rename_i hq hcm
        simp only [Option.some_inj] at h
        subst h
        simp only [Bool.and_eq_true, decide_eq_true_eq, Bool.not_eq_true'] at hcm
        refine ⟨?_, ?_, ?_, ?_⟩
        · rw [List.get?_cons_zero, hcm.1.2]
        · rw [List.get?_cons_succ, List.get?_eq_getElem?, ← List.head?_eq_getElem?]
          exact hcm.2
        · simp only [List.take_zero, literalState]
          exact hcm.1.1
        · intro m hm
          omega
      · rename_i hq hcm
        cases hrec : firstCommentIdx rest s (some c) with
        | none =>
          rw [hrec] at h
          cases h
        | some n' =>
          rw [hrec] at h
          simp only [Option.map_some', Option.some_inj] at h
          subst h
          obtain ⟨h1, h2, h3, h4⟩ := ih s (some c) n' hrec
          have hcond : (c = '"' && p ≠ some '\\') = false := by
            simpa using hq
          refine ⟨by simpa using h1, by simpa using h2, ?_, ?_⟩
          · rw [List.take_succ_cons, literalState_cons, hcond]
            exact h3
          · intro m hm hcontra
            cases m with
            | zero =>
              obtain ⟨hc1, hc2, hc3⟩ := hcontra
              rw [List.get?_cons_zero, Option.some_inj] at hc1
              simp only [List.take_zero, literalState] at hc3
              rw [List.get?_cons_succ, List.get?_eq_getElem?, ← List.head?_eq_getElem?] at hc2
              exact hcm (by simp [hc1, hc2, hc3])
            | succ m' =>
              obtain ⟨hc1, hc2, hc3⟩ := hcontra
              rw [List.take_succ_cons, literalState_cons, hcond] at hc3
              exact h4 m' (by omega) ⟨by simpa using hc1, by simpa using hc2, hc3⟩

/-- **C10.** The per-line comment stripper only ever truncates: its
output is the line itself or an initial segment of it (it copies
characters left to right and can only stop early). -/
theorem claim_C10_stripper_truncates_only (line : String) :
    List.IsPrefix (stripLine line).data line.data :=
  stripChars_isPrefix line.data false none

/-- **C4.** If every occurrence of `//` in a line lies inside a string
literal (per the stripper's own string-state), the stripper returns the
line unchanged; and if some `//` occurs outside a string literal, the
stripper returns exactly the characters strictly before the first such
occurrence. -/
theorem claim_C4_comment_stripping (line : String) :
    ((∀ n, n < line.data.length → line.data.get? n = some '/' →
        line.data.get? (n + 1) = some '/' → inLiteralAt line.data n = true) →
      stripLine line = line) ∧
    (∀ n, commentStartAt line.data n → (∀ m, m < n → ¬commentStartAt line.data m) →
      stripLine line = String.mk (line.data.take n)) := by
  constructor
  · intro hyp
    unfold stripLine
    cases h : firstCommentIdx line.data false none with
    | none => rw [stripChars_eq_take, h]
    | some n =>
      obtain ⟨h1, h2, h3, _⟩ := firstCommentIdx_spec _ _ _ _ h
      have hlt : n < line.data.length := by
        have := List.get?_eq_some.mp h1
        exact this.choose
      have htrue := hyp n hlt h1 h2
      unfold inLiteralAt at htrue
      rw [htrue] at h3
      cases h3
  · intro n hstart hmin
    unfold stripLine
    cases h : firstCommentIdx line.data false none with
    | none =>
      exfalso
      exact firstCommentIdx_none_spec _ _ _ h n ⟨hstart.1, hstart.2.1, hstart.2.2⟩
    | some n' =>
      obtain ⟨h1, h2, h3, h4⟩ := firstCommentIdx_spec _ _ _ _ h
      have hn : n = n' := by
        by_contra hne
        rcases Nat.lt_or_ge n n' with hlt | hge
        · exact h4 n hlt ⟨hstart.1, hstart.2.1, hstart.2.2⟩
        · have hlt' : n' < n := by omega
          exact hmin n' hlt' ⟨h1, h2, h3⟩
      subst hn
      rw [stripChars_eq_take, h]

/-- Witness for C4: the `//` inside the URL string does not truncate the
line, while the trailing `// toggles HUD` comment truncates its line at
index 21 (just before the slashes). -/
theorem claim_C4_comment_stripping_witness :
    stripLine "\"$url_setting\": \"http://example.com\"" =
      "\"$url_setting\": \"http://example.com\"" ∧
    stripLine "\"$weapon_hud\": true, // toggles HUD" =
      String.mk (("\"$weapon_hud\": true, // toggles HUD" : String).data.take 21) := by
  constructor
  · exact (claim_C4_comment_stripping "\"$url_setting\": \"http://example.com\"").1
      (by decide)
  · exact (claim_C4_comment_stripping "\"$weapon_hud\": true, // toggles HUD").2
      21 (by decide) (by decide)

/-! ## Lemmas about key-line matching and serializer indentation -/

theorem takeWhile_append_all (p : Char → Bool) (xs ys : List Char)
    (h : ∀ c ∈ xs, p c = true) :
    (xs ++ ys).takeWhile p = xs ++ ys.takeWhile p := by
  induction xs with
  | nil => simp
  | cons a rest ih =>
    rw [List.cons_append, List.takeWhile_cons_of_pos (h a (List.mem_cons_self _ _)),
      List.cons_append, ih (fun c hc => h c (List.mem_cons_of_mem _ hc))]

theorem dropWhile_append_all (p : Char → Bool) (xs ys : List Char)
    (h : ∀ c ∈ xs, p c = true) :
    (xs ++ ys).dropWhile p = ys.dropWhile p := by
  induction xs with
  | nil => simp
  | cons a rest ih =>
    rw [List.cons_append, List.dropWhile_cons_of_pos (h a (List.mem_cons_self _ _)),
      ih (fun c hc => h c (List.mem_cons_of_mem _ hc))]

theorem keyLineMatch_iff (s : List Char) (k : String) :
    keyLineMatch s = some k ↔
      ∃ content rest, s = '"' :: '$' :: (content ++ '"' :: ':' :: rest) ∧
        content ≠ [] ∧ (∀ c ∈ content, c ≠ '"') ∧ k = String.mk ('$' :: content) := by
  constructor
  · intro h
    unfold keyLineMatch at h
    split at h
    · rename_i r
      by_cases hemp : (List.takeWhile (fun c => decide (c ≠ '"')) r).isEmpty = true
      · rw [if_pos hemp] at h
        cases h
      · rw [if_neg hemp] at h
        split at h
        · rename_i t heq
          simp only [Option.some_inj] at h
          refine ⟨r.takeWhile (fun c => c ≠ '"'), t, ?_, ?_, ?_, h.symm⟩
          · have hsplit := List.takeWhile_append_dropWhile
              (p := fun c => decide (c ≠ '"')) (l := r)
            rw [heq] at hsplit
            rw [hsplit]
          · intro hc
            rw [hc] at hemp
            simp at hemp
          · intro c hc
            have := List.mem_takeWhile_imp hc
            simpa using this
        · cases h
    · cases h
  · rintro ⟨content, rest, hs, hne, hnq, hk⟩
    subst hs
    have hall : ∀ c ∈ content, (fun c => decide (c ≠ '"')) c = true := by
      intro c hc
      simpa using hnq c hc
    simp only [keyLineMatch]
    rw [takeWhile_append_all _ _ _ hall, dropWhile_append_all _ _ _ hall,
      List.takeWhile_cons_of_neg (by simp), List.dropWhile_cons_of_neg (by simp)]
    simp only [List.append_nil]
    split
    · rename_i hemp
      rw [List.isEmpty_iff] at hemp
      exact absurd hemp hne
    · rw [hk]

theorem claimTopLevel_eq_not_isSubSetting (key : String) :
    claimTopLevel key = !isSubSetting key := by
  unfold claimTopLevel isSubSetting
  rcases hkp : splitOnUnderscore (removeFirstDollar key) with _ | ⟨a, _ | ⟨b, _ | ⟨c, t⟩⟩⟩
  · rfl
  · rfl
  · simp [List.getD]
  · simp

theorem string_data_append (s t : String) : (s ++ t).data = s.data ++ t.data := rfl

theorem countLeadingSpaces_indent_quote (ind : List Char) (xs : List Char)
    (h : ∀ c ∈ ind, c = ' ') :
    (List.takeWhile (fun c => c = ' ') (ind ++ '"' :: xs)).length = ind.length := by
  rw [takeWhile_append_all _ _ _ (by intro c hc; simp [h c hc]),
    List.takeWhile_cons_of_neg (by simp)]
  simp

/-! ## C5: key-declaration pattern -/

/-- **C5 counterexample.** The line `"$weapon_hud" : true,` (whitespace
between the closing quote and the colon) matches the claim's pattern
`^\s*"\$[^"]+"\s*:` but is *not* recorded by the scanner: the source
regex `/^"\$([^"]+)":/` requires the colon immediately after the quote,
so the sections index of a file holding only this line is empty. -/
theorem claim_C5_counterexample :
    scanSections ["\"$weapon_hud\" : true,"] = [] ∧
    keyLineMatch (jsTrim "\"$weapon_hud\" : true,").data = none ∧
    scanSections ["\"$weapon_hud\": true,"] = [("General", ["$weapon_hud"])] := by
  refine ⟨rfl, rfl, rfl⟩

/-- **C5 amended.** The scanner records a key for a line exactly when
the trimmed line is a double quote, `$`, a nonempty run of non-quote
characters, then a closing quote *immediately followed by* a colon
(pattern `^\s*"\$[^"]+":` — no whitespace allowed between the closing
quote and the colon); the recorded key is `$` plus the quoted content. -/
theorem claim_C5_amended_key_pattern (line : String) (k : String) :
    keyLineMatch (jsTrim line).data = some k ↔
      ∃ content rest, (jsTrim line).data = '"' :: '$' :: (content ++ '"' :: ':' :: rest) ∧
        content ≠ [] ∧ (∀ c ∈ content, c ≠ '"') ∧ k = String.mk ('$' :: content) :=
  keyLineMatch_iff (jsTrim line).data k

/-! ## C7: serializer indentation -/

/-- **C7 counterexample.** The 2/4-space segment rule does not govern
*every* key line `serializeWithComments` emits: on the scenario parse
result the dedicated version-first rule emits the key line
`  "$bb_version": "1.0",` (a key-declaration line for `$bb_version`, as
the scanner's own matcher confirms) with exactly 2 leading spaces,
although `$bb_version` splits into the two segments `bb`/`version` with
`version` not in the recognized-suffix set, so the claimed rule demands
4 spaces for it. -/
theorem claim_C7_counterexample :
    serializeWithComments scenarioData scenarioSections = some scenarioReserialized ∧
    splitLines scenarioReserialized =
      ["\x7b", "  \"$bb_version\": \"1.0\",", "", "  // MODS",
       "  \"$weapon_hud\": true,", "    \"$weapon_hud_offset\": 5", "\x7d"] ∧
    keyLineMatch (jsTrim "  \"$bb_version\": \"1.0\",").data = some "$bb_version" ∧
    countLeadingSpaces "  \"$bb_version\": \"1.0\"," = 2 ∧
    claimTopLevel "$bb_version" = false := by
  refine ⟨rfl, rfl, rfl, rfl, rfl⟩

/-- **C7 amended.** Every key line emitted by the serializer's *section
loop* is indented with exactly 2 spaces when the key (after removing
`$`) has two underscore-separated segments whose second is one of
`{hud, counter, timer, list, menu, doll, slots}`, or has at most one
segment, and with exactly 4 spaces otherwise.  The single exception is
the dedicated version-first rule: when `$bb_version` is present in
`data` it is emitted once, straight after the opening brace and before
every section, always at 2 spaces — although the segment rule would
assign it 4 (`version` is not a recognized suffix). -/
theorem claim_C7_indentation :
    (∀ (data : List (String × Json)) (key comma line : String),
      keyLine data key comma = some line →
      countLeadingSpaces line = (if claimTopLevel key then 2 else 4)) ∧
    (∀ (data : List (String × Json)) (sections : List (String × List String)) (v : Json),
      alistLookup data "$bb_version" = some v →
      serializeLines data sections =
        "\x7b" :: ("  \"$bb_version\": \"" ++ jsToString v ++ "\",") :: "" ::
          (serializeAllSections data ((sections.map Prod.fst).getLast?) sections
            ["$bb_version"]).1 ∧
      countLeadingSpaces ("  \"$bb_version\": \"" ++ jsToString v ++ "\",") = 2 ∧
      claimTopLevel "$bb_version" = false) := by
  constructor
  · intro data key comma line h
    unfold keyLine at h
    cases hv : alistLookup data key with
    | none =>
      rw [hv] at h
      cases h
    | some v =>
      rw [hv] at h
      simp only [Option.some_inj] at h
      subst h
      rw [claimTopLevel_eq_not_isSubSetting]
      by_cases hsub : isSubSetting key = true
      · rw [if_pos hsub, hsub]
        simp only [Bool.not_true, Bool.false_eq_true, if_false]
        unfold countLeadingSpaces
        have hdata : ("    " ++ "\"" ++ key ++ "\": " ++ jsonValueText v ++ comma).data =
            ("    " : String).data ++
              '"' :: (key.data ++ ("\": " : String).data ++ (jsonValueText v).data ++
                comma.data) := by
          simp [string_data_append, List.append_assoc,
            (show ("\"" : String).data = ['"'] from rfl)]
        rw [hdata, countLeadingSpaces_indent_quote _ _ (by decide)]
        rfl
      · rw [if_neg hsub]
        rw [Bool.not_eq_true] at hsub
        rw [hsub]
        simp only [Bool.not_false, if_true]
        unfold countLeadingSpaces
        have hdata : ("  " ++ "\"" ++ key ++ "\": " ++ jsonValueText v ++ comma).data =
            ("  " : String).data ++
              '"' :: (key.data ++ ("\": " : String).data ++ (jsonValueText v).data ++
                comma.data) := by
          simp [string_data_append, List.append_assoc,
            (show ("\"" : String).data = ['"'] from rfl)]
        rw [hdata, countLeadingSpaces_indent_quote _ _ (by decide)]
        rfl
  · intro data sections v hv
    refine ⟨?_, ?_, rfl⟩
    · simp [serializeLines, hv]
    · unfold countLeadingSpaces
      have hdata : ("  \"$bb_version\": \"" ++ jsToString v ++ "\",").data =
          [' ', ' '] ++ '"' :: (("$bb_version\": \"" : String).data ++
            ((jsToString v).data ++ ("\"," : String).data)) := by
        simp [string_data_append, List.append_assoc,
          (show ("  \"$bb_version\": \"" : String).data =
            [' ', ' '] ++ '"' :: ("$bb_version\": \"" : String).data from rfl)]
      rw [hdata, countLeadingSpaces_indent_quote _ _ (by decide)]
      rfl

/-- Witness for C7 at the spec's three section-loop examples
(`$weapon_hud` at 2 spaces, `$weapon_hud_offset` and `$weapon_opacity`
at 4) and at the version-first exception (`$bb_version` at 2 spaces
despite failing the segment rule). -/
theorem claim_C7_indentation_witness :
    countLeadingSpaces "  \"$weapon_hud\": true," = 2 ∧
    countLeadingSpaces "    \"$weapon_hud_offset\": 5," = 4 ∧
    countLeadingSpaces "    \"$weapon_opacity\": 1," = 4 ∧
    countLeadingSpaces "  \"$bb_version\": \"1.0\"," = 2 ∧
    claimTopLevel "$bb_version" = false := by
  refine ⟨?_, ?_, ?_, ?_, ?_⟩
  · have := claim_C7_indentation.1
      [("$weapon_hud", Json.bool true), ("$weapon_hud_offset", Json.num 5 0),
       ("$weapon_opacity", Json.num 1 0)]
      "$weapon_hud" "," "  \"$weapon_hud\": true," (by rfl)
    simpa using this
  · have := claim_C7_indentation.1
      [("$weapon_hud", Json.bool true), ("$weapon_hud_offset", Json.num 5 0),
       ("$weapon_opacity", Json.num 1 0)]
      "$weapon_hud_offset" "," "    \"$weapon_hud_offset\": 5," (by rfl)
    simpa using this
  · have := claim_C7_indentation.1
      [("$weapon_hud", Json.bool true), ("$weapon_hud_offset", Json.num 5 0),
       ("$weapon_opacity", Json.num 1 0)]
      "$weapon_opacity" "," "    \"$weapon_opacity\": 1," (by rfl)
    simpa using this
  · exact (claim_C7_indentation.2 [("$bb_version", Json.str "1.0")] []
      (Json.str "1.0") (by rfl)).2.1
  · exact (claim_C7_indentation.2 [("$bb_version", Json.str "1.0")] []
      (Json.str "1.0") (by rfl)).2.2

/-! ## C8: display-name formatting -/

theorem upperWordStarts_eq_zip (l : List Char) : ∀ p, upperWordStarts p l =
    (l.zip (p :: l.map some)).map (fun cp =>
      if wordCharB cp.1 && !((cp.2.map wordCharB).getD false) then upperAscii cp.1
      else cp.1) := by
  induction l with
  | nil => intro p; rfl
  | cons c rest ih =>
    intro p
    simp only [upperWordStarts, List.map_cons, List.zip_cons_cons, ih (some c)]
    cases p <;> rfl

/-- **C8 counterexample.** `formatKeyName "$a-b"` upper-cases the `b`
although its predecessor is a hyphen, not a space: the source regex
`\b\w` fires after *any* non-word character.  The claim's description
(upper-case only at start or after a space, so `"A-b"`) disagrees with
the code's result `"A-B"`. -/
theorem claim_C8_counterexample :
    formatKeyName "$a-b" = "A-B" ∧ ("A-B" : String) ≠ "A-b" :=
  ⟨rfl, by decide⟩

/-- **C8 amended.** `formatKeyName` removes a leading `$`, replaces
every `_` with a space, and upper-cases every word character (letter,
digit or underscore) standing at the start of the string or immediately
after a **non-word** character (spaces included, but also hyphens and
other punctuation); all other characters are unchanged. -/
theorem claim_C8_word_boundary_uppercase (key : String) :
    formatKeyName key = formatKeyNameWordBoundary key := by
  unfold formatKeyName formatKeyNameWordBoundary wordStartUpper
  rw [upperWordStarts_eq_zip]

/-! ## C6: error handling -/

theorem dropWhile_empty_ne_nil_of_mem (l : List String) (x : String)
    (hx : x ∈ l) (hne : x ≠ "") : l.dropWhile (fun s => s = "") ≠ [] := by
  induction l with
  | nil => cases hx
  | cons a rest ih =>
    by_cases h : a = ""
    · rw [List.dropWhile_cons_of_pos (by simp [h])]
      rcases List.mem_cons.mp hx with h1 | h2
      · subst h1
        exact absurd h hne
      · exact ih h2
    · rw [List.dropWhile_cons_of_neg (by simp [h])]
      simp

theorem dropTrailingEmpty_ne_nil (ls : List String) (x : String)
    (hx : x ∈ ls) (hne : x ≠ "") : dropTrailingEmpty ls ≠ [] := by
  unfold dropTrailingEmpty
  intro hcon
  have hrev := congrArg List.reverse hcon
  rw [List.reverse_reverse, List.reverse_nil] at hrev
  exact dropWhile_empty_ne_nil_of_mem ls.reverse x (List.mem_reverse.mpr hx) hne hrev

theorem brace_mem_serializeLines (data : List (String × Json))
    (sections : List (String × List String)) : "\x7b" ∈ serializeLines data sections := by
  unfold serializeLines
  exact List.mem_cons_self _ _

theorem serializeWithComments_isSome (data : List (String × Json))
    (sections : List (String × List String)) :
    (serializeWithComments data sections).isSome = true := by
  have hne : dropTrailingEmpty (serializeLines data sections) ≠ [] :=
    dropTrailingEmpty_ne_nil _ "\x7b" (brace_mem_serializeLines data sections) (by decide)
  cases hlast : (dropTrailingEmpty (serializeLines data sections)).getLast? with
  | none =>
    exfalso
    exact hne (List.getLast?_eq_none_iff.mp hlast)
  | some lastLine => simp [serializeWithComments, hlast]

/-- **C6.** `parseJsonWithComments` fails exactly when the
comment-stripped, newline-joined text fails JSON parsing; on failure it
returns a single error wrapping the underlying parser's message with the
fixed prefix `"Invalid JSON format: "` and no partial result, and on
success it returns the parsed value together with the scanned section
index.  The serializer, by contrast, always produces a result (its
only conceivable crash point, reading the last line of an empty buffer,
is unreachable because the buffer always holds the opening brace);
`formatKeyName` and `isChildSetting` are total by construction. -/
theorem claim_C6_error_handling :
    (∀ text : String,
      exceptIsOk (parseJsonWithComments text) =
        exceptIsOk (jsonParse (cleanedText text)) ∧
      (∀ m, jsonParse (cleanedText text) = .error m →
        parseJsonWithComments text = .error ("Invalid JSON format: " ++ m)) ∧
      (∀ d, jsonParse (cleanedText text) = .ok d →
        parseJsonWithComments text = .ok (d, scanSections (splitLines text)))) ∧
    (∀ (data : List (String × Json)) (sections : List (String × List String)),
      (serializeWithComments data sections).isSome = true) := by
  constructor
  · intro text
    refine ⟨?_, ?_, ?_⟩
    · cases h : jsonParse (cleanedText text) <;>
        simp [parseJsonWithComments, h, exceptIsOk]
    · intro m hm
      simp [parseJsonWithComments, hm]
    · intro d hd
      simp [parseJsonWithComments, hd]
  · exact serializeWithComments_isSome

/-- Witness for C6: the malformed input `"{"` is rejected with the
wrapped message of the underlying JSON parser, and the serializer
succeeds even on empty inputs. -/
theorem claim_C6_error_handling_witness :
    parseJsonWithComments "\x7b" =
      .error ("Invalid JSON format: " ++
        "Expected double-quoted property name in JSON object") ∧
    (serializeWithComments [] []).isSome = true := by
  constructor
  · exact (claim_C6_error_handling.1 "\x7b").2.1
      "Expected double-quoted property name in JSON object" (by rfl)
  · exact claim_C6_error_handling.2 [] []

/-! ## C1 and C2: the scenario input and its round trip -/

/-- **C1 counterexample.** The spec's scenario input is a well-formed
input with a header comment and `$`-keys, yet parse–serialize–parse does
not reproduce the first parse's section index: the serializer emits
`$bb_version` before any header (version-first rule), so the second
parse files it under `General`, while the first parse filed it under
`MODS`. -/
theorem claim_C1_counterexample :
    parseJsonWithComments scenarioInput = .ok (Json.obj scenarioData, scenarioSections) ∧
    serializeWithComments scenarioData scenarioSections = some scenarioReserialized ∧
    parseJsonWithComments scenarioReserialized =
      .ok (Json.obj scenarioData, scenarioSectionsAfter) ∧
    scenarioSectionsAfter ≠ scenarioSections := by
  refine ⟨rfl, rfl, rfl, by decide⟩

/-- **C1 amended.** On the scenario round trip the re-parsed `data` is
deeply equal to the first parse's `data`, but the sections index is
*not* preserved: `$bb_version` (re-emitted before any header by the
serializer's version-first rule) moves from `MODS` to a new `General`
entry, the remaining keys staying under `MODS`. -/
theorem claim_C1_amended_roundtrip :
    parseJsonWithComments scenarioInput = .ok (Json.obj scenarioData, scenarioSections) ∧
    serializeWithComments scenarioData scenarioSections = some scenarioReserialized ∧
    parseJsonWithComments scenarioReserialized =
      .ok (Json.obj scenarioData,
        [("General", ["$bb_version"]), ("MODS", ["$weapon_hud", "$weapon_hud_offset"])]) :=
  ⟨rfl, rfl, rfl⟩

/-- **C2 counterexample.** On the six-line scenario input the `// MODS`
header precedes *every* key line (including `$bb_version`), so the
sections index has no `General` entry at all — the claimed index
`{"General": [], "MODS": ["$weapon_hud", "$weapon_hud_offset"]}` is
wrong on both counts (and a committed empty list is impossible). -/
theorem claim_C2_counterexample :
    parseJsonWithComments scenarioInput = .ok (Json.obj scenarioData, scenarioSections) ∧
    alistLookup scenarioSections "General" = none ∧
    scenarioSections ≠ [("General", []), ("MODS", ["$weapon_hud", "$weapon_hud_offset"])] := by
  refine ⟨rfl, rfl, by decide⟩

/-- **C2 amended.** The scenario input parses to the claimed `data`
(`$bb_version ↦ "1.0"`, `$weapon_hud ↦ true`, `$weapon_hud_offset ↦ 5`)
and to the sections index
`{"MODS": ["$bb_version", "$weapon_hud", "$weapon_hud_offset"]}`:
all three keys are filed under `MODS` and no `General` entry exists. -/
theorem claim_C2_amended_scenario :
    parseJsonWithComments scenarioInput =
      .ok (Json.obj
        [("$bb_version", Json.str "1.0"), ("$weapon_hud", Json.bool true),
         ("$weapon_hud_offset", Json.num 5 0)],
        [("MODS", ["$bb_version", "$weapon_hud", "$weapon_hud_offset"])]) :=
  rfl

end JsonEditorBuddy
